import Mathlib

/-!
Verification of the core logic of a cloud function that syncs an Okta group
with long-term-leave users computed from a Deel time-off ledger
(`cloud_function/main.py`).

Modelling conventions:
* Dates are modelled as `Int` ordinal day numbers; `dt.timedelta(days = 1)`
  is the integer `1` and `(end - start).days` is `end - start`.
* Monetary amounts (Python `float`) are modelled as `ℚ`.
* Python `Optional` values are Lean `Option`; exception-free exclusion paths
  are the `none` branch.
* The external `datetime` library parsers (`dt.datetime.fromisoformat`,
  `dt.date.fromisoformat`) are collaborators outside the repository; they
  are modelled as an explicit `DateLib` parameter.
-/

namespace CloudFunction

/-- A closed date interval, as the pair `(start, end)` used by the code. -/
abbrev Interval := Int × Int

/-- The sweep loop of `merge_intervals` (main.py lines 197-204), written as a
recursion on the remaining sorted intervals with the running interval
`(currentStart, currentEnd)` as state: an incoming interval whose start is at
most `currentEnd + 1` extends the running end to the max, otherwise the
running interval is emitted and the incoming one becomes the new state. -/
def sweep : Interval → List Interval → List Interval
  | c, [] => [c]
  | c, iv :: rest =>
    if iv.1 ≤ c.2 + 1 then sweep (c.1, max c.2 iv.2) rest
    else c :: sweep iv rest

/-- Function `merge_intervals` (main.py lines 192-205), translated literally: the empty
check, the stable sort by interval start (`sorted(..., key=lambda item:
item[0])`), and the accumulating loop with a final append.  The loop is a
`foldl` carrying `(merged, current_start, current_end)`. -/
def merge_intervals (intervals : List Interval) : List Interval :=
  match intervals.mergeSort (fun a b => decide (a.1 ≤ b.1)) with
  | [] => []
  | first :: restSorted =>
    let step := fun (acc : List Interval × Int × Int) (iv : Interval) =>
      if iv.1 ≤ acc.2.2 + 1 then (acc.1, acc.2.1, max acc.2.2 iv.2)
      else (acc.1 ++ [(acc.2.1, acc.2.2)], iv.1, iv.2)
    let out := restSorted.foldl step ([], first.1, first.2)
    out.1 ++ [(out.2.1, out.2.2)]

/-- Reference sweep, modelled from the spec's words (§4.3 step 2a): "sort by
start date; sweep in order, extending the current running interval's end to
max(currentEnd, nextEnd) whenever next.start <= currentEnd + 1 day; otherwise
close the current span and start a new one". -/
def sweepRef (currentStart currentEnd : Int) : List Interval → List Interval
  | [] => [(currentStart, currentEnd)]
  | nxt :: rest =>
    if nxt.1 ≤ currentEnd + 1 then sweepRef currentStart (max currentEnd nxt.2) rest
    else (currentStart, currentEnd) :: sweepRef nxt.1 nxt.2 rest

/-- Reference merge, modelled from the spec's words: sort by start date, then
run the reference sweep from the first interval. -/
def merge_ref (intervals : List Interval) : List Interval :=
  match intervals.mergeSort (fun a b => decide (a.1 ≤ b.1)) with
  | [] => []
  | first :: rest => sweepRef first.1 first.2 rest

/-- A raw Python value in a record field, as consumed by `parse_date`
(main.py lines 79-98): `null` is `None` or any other falsy value, `date` and
`datetime` are library date objects carrying their `.date()` ordinal, `str`
is a non-degenerate string, and `obj` is any other truthy non-date,
non-string object. -/
inductive PyVal where
  | null
  | date (d : Int)
  | datetime (d : Int)
  | str (s : String)
  | obj
deriving DecidableEq

/-- Python truthiness of a `PyVal` (`if not value`): `None` and the empty
string are falsy; date objects and other objects modelled here are truthy. -/
def py_truthy : PyVal → Bool
  | .null => false
  | .str s => !(s.isEmpty)
  | _ => true

/-- The external `datetime` library parsers, as an oracle on strings:
`datetimeFromIso` is `dt.datetime.fromisoformat(.).date()` (`none` models the
raised `Exception`), `dateFromIso` is `dt.date.fromisoformat`.  These live in
the Python standard library, outside the repository. -/
structure DateLib where
  datetimeFromIso : String → Option Int
  dateFromIso : String → Option Int

/-- Function `parse_date` (main.py lines 79-98): falsy values and non-date,
non-string objects give `None`; date and datetime objects give their date;
strings are stripped, a trailing "Z" is replaced by "+00:00", then
`datetime.fromisoformat` is tried and `date.fromisoformat` is the fallback,
with any parse failure absorbed into `None`. -/
def parse_date (lib : DateLib) (value : PyVal) : Option Int :=
  if py_truthy value = false then none
  else
    match value with
    | .date d => some d
    | .datetime d => some d
    | .str s =>
      let stripped := s.trim
      let cleaned :=
        if stripped.endsWith ("Z") then stripped.dropRight 1 ++ "+00:00"
        else stripped
      match lib.datetimeFromIso cleaned with
      | some d => some d
      | Option.none => lib.dateFromIso cleaned
    | _ => none

/-- The result of Python `float(raw)` on a present amount field: a rational
value, or `bad` when it raises `TypeError`/`ValueError`. -/
inductive PyAmount where
  | num (q : ℚ)
  | bad
deriving DecidableEq

/-- The fields of a raw time-off record consumed by the core:
`start_date` and `end_date` (as handed to `parse_date`), the `amount` field
(`none` when absent), and the identity that `extract_email` resolves from the
record (`none` when no non-empty email-like field is found). -/
structure Entry where
  start_date : PyVal
  end_date : PyVal
  amount : Option PyAmount
  email : Option String

/-- Function `get_interval_and_amount` (main.py lines 172-189): parse the start date;
the end date falls back to the start (`parse_date(...) or start`); exclude
unless both parse and the interval intersects the window
(`start <= window_end and end >= window_start`); then exclude on an absent or
non-numeric amount; otherwise return the triple. -/
def get_interval_and_amount (lib : DateLib) (entry : Entry)
    (window_start window_end : Int) : Option (Int × Int × ℚ) :=
  let start := parse_date lib entry.start_date
  let endv := (parse_date lib entry.end_date).orElse (fun _ => start)
  match start, endv with
  | some s, some e =>
    if s ≤ window_end ∧ window_start ≤ e then
      match entry.amount with
      | Option.none => none
      | some PyAmount.bad => none
      | some (PyAmount.num q) => some (s, e, q)
    else none
  | _, _ => none

/-- One page of the Record Source's response, after the code's field
normalization: `items` is `body.get("data") or ... or body if list`
(`none` when no recognized list is found), `has_next_page` is the truthiness
of `body.get("has_next_page")`, and `next_cursor` is
`body.get("next") or body.get("cursor")` (`none` when falsy). -/
structure Page (α : Type) where
  items : Option (List α)
  has_next_page : Bool
  next_cursor : Option String

/-- The pagination loop of `fetch_time_offs` (main.py lines 109-142) over a
given sequence of page responses.  Returns the yielded items and the number
of pages requested.  The loop continues only when `has_next and next_cursor`;
both remaining branches (`len(items) < DEEL_PAGE_SIZE` and the fall-through)
`break`, which is preserved here. -/
def fetch_time_offs {α : Type} (pageSize : Nat) :
    List (Page α) → List α × Nat
  | [] => ([], 0)
  | p :: rest =>
    match p.items with
    | Option.none => ([], 1)
    | some items =>
      if items.isEmpty then ([], 1)
      else if p.has_next_page && p.next_cursor.isSome then
        let r := fetch_time_offs pageSize rest
        (items ++ r.1, r.2 + 1)
      else if items.length < pageSize then (items, 1)
      else (items, 1)

/-- One `(start, end, amount)` triple of a user's ledger. -/
abbrev LedgerEntry := Int × Int × ℚ

/-- Python `dict.setdefault(email, []).append(t)`: append `t` to the list stored
under the first occurrence of `email`, or add a new singleton binding at the
end (Python dicts preserve insertion order). -/
def ledgerAppend {β : Type} (led : List (String × List β)) (email : String)
    (t : β) : List (String × List β) :=
  match led with
  | [] => [(email, [t])]
  | (k, v) :: rest =>
    if k = email then (k, v ++ [t]) :: rest
    else (k, v) :: ledgerAppend rest email t

/-- The body of the accumulation loop of `compute_long_term_emails` (main.py
lines 213-222): skip entries without an identity (`if not email: continue`)
or without an interval+amount against the window (`if not interval_amount:
continue`); otherwise append to that identity's ledger. -/
def ledgerStep (lib : DateLib) (today : Int)
    (led : List (String × List LedgerEntry)) (entry : Entry) :
    List (String × List LedgerEntry) :=
  match entry.email with
  | Option.none => led
  | some email =>
    match get_interval_and_amount lib entry today today with
    | Option.none => led
    | some t => ledgerAppend led email t

/-- The accumulation phase of `compute_long_term_emails` (main.py lines
213-222), run over all entries against the single-day window
`[today, today]`.  The source keeps `user_intervals` and `user_amounts` in
two dicts updated in lockstep; here one ledger of triples carries both. -/
def buildLedgers (lib : DateLib) (today : Int) (entries : List Entry) :
    List (String × List LedgerEntry) :=
  entries.foldl (ledgerStep lib today) []

/-- Python dict lookup on the insertion-ordered association list. -/
def ledgerLookup {β : Type} (led : List (String × β)) (e : String) :
    Option β :=
  match led with
  | [] => none
  | (k, v) :: rest => if k = e then some v else ledgerLookup rest e

/-- The inner amount aggregation of the eligibility loop (main.py lines
231-234): the sum of the amounts of the ledger triples whose interval
intersects the merged span (`start <= interval_end and end >= interval_start`). -/
def spanTotal (amts : List LedgerEntry) (spanStart spanEnd : Int) : ℚ :=
  ((amts.filter fun t =>
      decide (t.1 ≤ spanEnd) && decide (spanStart ≤ t.2.1)).map
    fun t => t.2.2).sum

/-- The per-identity eligibility test of `compute_long_term_emails` (main.py
lines 226-237): some merged span of the ledger's intervals has at least
`minDays` days (`(end - start).days + 1`) and an intersecting amount total of
at least `minAmount`. -/
def eligibleLedger (minDays : Int) (minAmount : ℚ)
    (amts : List LedgerEntry) : Bool :=
  (merge_intervals (amts.map fun t => (t.1, t.2.1))).any fun sp =>
    decide (minDays ≤ sp.2 - sp.1 + 1) &&
    decide (minAmount ≤ spanTotal amts sp.1 sp.2)

/-- Function `compute_long_term_emails` (main.py lines 208-238), with the evaluation
date and the two thresholds explicit.  The Python set of emails is the list
of eligible ledger keys (keys are unique, insertion-ordered). -/
def compute_long_term_emails (lib : DateLib) (today minDays : Int)
    (minAmount : ℚ) (entries : List Entry) : List String :=
  (buildLedgers lib today entries).filterMap fun p =>
    if eligibleLedger minDays minAmount p.2 then some p.1 else none

/-- The planning step of `sync_okta_group` (main.py lines 288-295): current
member emails are the keys of the membership snapshot; `to_add` and
`to_remove` are the two set differences; both are processed in `sorted`
order. -/
def sync_plan (long_term_emails : Finset String)
    (current_members : List (String × String)) :
    List String × List String :=
  let current_emails := (current_members.map Prod.fst).toFinset
  let to_add := long_term_emails \ current_emails
  let to_remove := current_emails \ long_term_emails
  (to_add.sort (· ≤ ·), to_remove.sort (· ≤ ·))

/-- Modelled from the spec: the effect of executing a reconciliation plan on
the group's membership keys when every identity lookup and every add/remove
call succeeds (the remote group state lives behind the Okta API, outside the
repository): the new key set is `(keys(M) \ toRemove) ∪ toAdd`. -/
def apply_plan_keys (keys : Finset String)
    (plan : List String × List String) : Finset String :=
  (keys \ plan.2.toFinset) ∪ plan.1.toFinset

/-- The per-ledger invariant: every stored triple overlaps `today`. -/
def ledgerOK (today : Int) (led : List (String × List LedgerEntry)) : Prop :=
  ∀ p ∈ led, ∀ t ∈ p.2, t.1 ≤ today ∧ today ≤ t.2.1

/-- A trivial date-library oracle for concrete evaluations: every string
fails to parse. -/
def lib0 : DateLib := ⟨fun _ => none, fun _ => none⟩

/-- A concrete record: a one-day leave on day 0, amount 5, identity "a". -/
def entryW : Entry :=
  ⟨PyVal.date 0, PyVal.null, some (PyAmount.num 5), some ("a")⟩

/-- A concrete record with an unparsable end-date string. -/
def entryZ : Entry :=
  ⟨PyVal.date 0, PyVal.str ("x"), some (PyAmount.num 5), some ("a")⟩

/-- The loop of `merge_intervals` agrees with the recursive `sweep`. -/
theorem foldl_step_eq_sweep (l : List Interval) (acc : List Interval)
    (cs ce : Int) :
    (let out := l.foldl
      (fun (acc : List Interval × Int × Int) (iv : Interval) =>
        if iv.1 ≤ acc.2.2 + 1 then (acc.1, acc.2.1, max acc.2.2 iv.2)
        else (acc.1 ++ [(acc.2.1, acc.2.2)], iv.1, iv.2)) (acc, cs, ce);
      out.1 ++ [(out.2.1, out.2.2)]) = acc ++ sweep (cs, ce) l := by
  induction l generalizing acc cs ce with
  | nil => simp [sweep]
  | cons iv rest ih =>
    simp only [List.foldl_cons, sweep]
    by_cases h : iv.1 ≤ ce + 1
    · simp only [h, if_pos]
      exact ih acc cs (max ce iv.2)
    · simp only [h, if_neg, not_false_iff]
      rw [ih (acc ++ [(cs, ce)]) iv.1 iv.2]
      simp [sweep]

/-- Rewriting `merge_intervals` in terms of `sweep` over the sorted input. -/
theorem merge_intervals_eq_sweep (intervals : List Interval) :
    merge_intervals intervals =
      match intervals.mergeSort (fun a b => decide (a.1 ≤ b.1)) with
      | [] => []
      | first :: restSorted => sweep first restSorted := by
  unfold merge_intervals
  cases h : intervals.mergeSort (fun a b => decide (a.1 ≤ b.1)) with
  | nil => rfl
  | cons first restSorted =>
    simpa using foldl_step_eq_sweep restSorted [] first.1 first.2

/-- The first emitted span of a sweep starts at the running interval's start. -/
theorem sweep_head_fst (c : Interval) (l : List Interval) :
    ((sweep c l).head?).map Prod.fst = some c.1 := by
  induction l generalizing c with
  | nil => simp [sweep]
  | cons iv rest ih =>
    simp only [sweep]
    by_cases h : iv.1 ≤ c.2 + 1
    · simpa [h] using ih (c.1, max c.2 iv.2)
    · simp [h]

/-- A sweep never returns the empty list. -/
theorem sweep_ne_nil (c : Interval) (l : List Interval) : sweep c l ≠ [] := by
  induction l generalizing c with
  | nil => simp [sweep]
  | cons iv rest ih =>
    simp only [sweep]
    by_cases h : iv.1 ≤ c.2 + 1 <;> simp [h, ih]

/-- Consecutive spans emitted by a sweep are separated by a gap of more than
one day: the later span starts strictly after the earlier span's end plus one.
This holds for any input list, sorted or not. -/
theorem sweep_gap_chain (c : Interval) (l : List Interval) :
    List.Chain' (fun a b : Interval => a.2 + 1 < b.1) (sweep c l) := by
  induction l generalizing c with
  | nil => simp [sweep]
  | cons iv rest ih =>
    simp only [sweep]
    by_cases h : iv.1 ≤ c.2 + 1
    · simpa [h] using ih (c.1, max c.2 iv.2)
    · simp only [h, if_neg, not_false_iff]
      have hh := sweep_head_fst iv rest
      cases hs : sweep iv rest with
      | nil => exact absurd hs (sweep_ne_nil iv rest)
      | cons p q =>
        rw [hs] at hh
        refine List.Chain'.cons ?_ (hs ▸ ih iv)
        have hp1 : p.1 = iv.1 := by simpa using hh
        omega

/-- Every start of a span emitted by a sweep is the running start or the start
of some input interval. -/
theorem sweep_fst_mem (c : Interval) (l : List Interval) :
    ∀ p ∈ sweep c l, p.1 = c.1 ∨ p.1 ∈ l.map Prod.fst := by
  induction l generalizing c with
  | nil => simp [sweep]
  | cons iv rest ih =>
    intro p hp
    simp only [sweep] at hp
    by_cases h : iv.1 ≤ c.2 + 1
    · rw [if_pos h] at hp
      rcases ih (c.1, max c.2 iv.2) p hp with h1 | h1
      · exact Or.inl h1
      · simp only [List.map_cons, List.mem_cons]
        exact Or.inr (Or.inr h1)
    · rw [if_neg h] at hp
      rcases List.mem_cons.mp hp with rfl | hp'
      · exact Or.inl rfl
      · rcases ih iv p hp' with h1 | h1
        · exact Or.inr (by simp [h1])
        · exact Or.inr (by simp [h1])

/-- If the input to a sweep is sorted by start, and the running start is below
every input start, the emitted spans are sorted by start. -/
theorem sweep_sorted_fst (c : Interval) (l : List Interval)
    (hc : ∀ x ∈ l, c.1 ≤ x.1)
    (hl : l.Pairwise (fun a b : Interval => a.1 ≤ b.1)) :
    (sweep c l).Pairwise (fun a b : Interval => a.1 ≤ b.1) := by
  induction l generalizing c with
  | nil => simp [sweep]
  | cons iv rest ih =>
    rcases List.pairwise_cons.mp hl with ⟨hiv, hrest⟩
    simp only [sweep]
    by_cases h : iv.1 ≤ c.2 + 1
    · rw [if_pos h]
      refine ih (c.1, max c.2 iv.2) ?_ hrest
      intro x hx
      exact le_trans (hc iv (by simp)) (hiv x hx)
    · rw [if_neg h]
      refine List.pairwise_cons.mpr ⟨?_, ih iv (fun x hx => hiv x hx) hrest⟩
      intro p hp
      rcases sweep_fst_mem iv rest p hp with h1 | h1
      · rw [h1]; exact hc iv (by simp)
      · rcases List.mem_map.mp h1 with ⟨x, hx, hx'⟩
        rw [← hx']
        exact hc x (by simp [hx])

/-- The sorting pass of `merge_intervals` yields a list sorted by start. -/
theorem mergeSort_fst_sorted (l : List Interval) :
    (l.mergeSort (fun a b => decide (a.1 ≤ b.1))).Pairwise
      (fun a b : Interval => a.1 ≤ b.1) := by
  have h := @List.sorted_mergeSort Interval
    (fun a b : Interval => decide (a.1 ≤ b.1))
    (fun a b c hab hbc => by
      simp only [decide_eq_true_eq] at *; omega)
    (fun a b => by
      simp only [Bool.or_eq_true, decide_eq_true_eq]; omega) l
  exact h.imp (fun hab => by simpa using hab)

/-- The reference sweep and the code's sweep agree. -/
theorem sweepRef_eq_sweep (cs ce : Int) (l : List Interval) :
    sweepRef cs ce l = sweep (cs, ce) l := by
  induction l generalizing cs ce with
  | nil => rfl
  | cons iv rest ih =>
    simp only [sweepRef, sweep]
    by_cases h : iv.1 ≤ ce + 1 <;> simp [h, ih]

/-- Computing `mergeSort` of a two-element list, by unfolding. -/
theorem mergeSort_pair {α : Type} (le : α → α → Bool) (a b : α) :
    List.mergeSort [a, b] le = if le a b then [a, b] else [b, a] := by
  rw [List.mergeSort]
  simp only [List.splitInTwo, List.splitAt_eq]
  by_cases h : le a b <;> simp [h, List.merge, List.mergeSort]

/-- Theorem: `merge_intervals` agrees with the spec's reference algorithm. -/
theorem merge_intervals_eq_ref (l : List Interval) :
    merge_intervals l = merge_ref l := by
  rw [merge_intervals_eq_sweep]
  unfold merge_ref
  cases l.mergeSort (fun a b => decide (a.1 ≤ b.1)) with
  | nil => rfl
  | cons first rest => exact (sweepRef_eq_sweep first.1 first.2 rest).symm

/-- The merged result is sorted by span start. -/
theorem merge_intervals_sorted (l : List Interval) :
    (merge_intervals l).Pairwise (fun a b : Interval => a.1 ≤ b.1) := by
  rw [merge_intervals_eq_sweep]
  have hs := mergeSort_fst_sorted l
  cases hms : l.mergeSort (fun a b => decide (a.1 ≤ b.1)) with
  | nil => simp
  | cons first rest =>
    rw [hms] at hs
    rcases List.pairwise_cons.mp hs with ⟨hfirst, hrest⟩
    exact sweep_sorted_fst first rest hfirst hrest

/-- Consecutive merged spans are separated by a gap of more than one day. -/
theorem merge_intervals_gaps (l : List Interval) :
    List.Chain' (fun a b : Interval => a.2 + 1 < b.1) (merge_intervals l) := by
  rw [merge_intervals_eq_sweep]
  cases l.mergeSort (fun a b => decide (a.1 ≤ b.1)) with
  | nil => simp
  | cons first rest => exact sweep_gap_chain first rest

/-- A sweep over a list whose consecutive elements (running interval included)
are separated by gaps of more than one day changes nothing. -/
theorem sweep_of_gaps (c : Interval) (l : List Interval)
    (h : List.Chain' (fun a b : Interval => a.2 + 1 < b.1) (c :: l)) :
    sweep c l = c :: l := by
  induction l generalizing c with
  | nil => rfl
  | cons iv rest ih =>
    rcases List.chain'_cons.mp h with ⟨hgap, htail⟩
    simp only [sweep]
    rw [if_neg (by omega)]
    rw [ih iv htail]

/-- C2: `merge_intervals` coincides with the spec's sweep reference algorithm;
its result is sorted by start with every consecutive pair separated by a gap
of more than one day; and merging two adjacent intervals with gap at most one
day yields the single span from the min start to the max end. -/
theorem C2_merge_matches_reference :
    (∀ l : List Interval,
        merge_intervals l = merge_ref l ∧
        (merge_intervals l).Pairwise (fun a b : Interval => a.1 ≤ b.1) ∧
        List.Chain' (fun a b : Interval => a.2 + 1 < b.1) (merge_intervals l)) ∧
    (∀ a b : Interval,
        (if a.1 ≤ b.1 then b.1 ≤ a.2 + 1 else a.1 ≤ b.2 + 1) →
        merge_intervals [a, b] = [(min a.1 b.1, max a.2 b.2)]) := by
  constructor
  · intro l
    exact ⟨merge_intervals_eq_ref l, merge_intervals_sorted l,
      merge_intervals_gaps l⟩
  · intro a b h
    rw [merge_intervals_eq_sweep, mergeSort_pair]
    by_cases hab : a.1 ≤ b.1
    · rw [if_pos hab] at h
      rw [if_pos (by simpa using hab)]
      simp only [sweep, if_pos h]
      have hmin : min a.1 b.1 = a.1 := by omega
      rw [hmin]
    · rw [if_neg hab] at h
      rw [if_neg (by simpa using hab)]
      simp only [sweep, if_pos h]
      have hmin : min a.1 b.1 = b.1 := by omega
      rw [hmin, max_comm]

/-- C5: merging an already-merged list — sorted by start, consecutive spans
separated by gaps of more than one day — returns it unchanged. -/
theorem C5_merge_idempotent (l : List Interval)
    (hsorted : l.Pairwise (fun a b : Interval => a.1 ≤ b.1))
    (hgaps : List.Chain' (fun a b : Interval => a.2 + 1 < b.1) l) :
    merge_intervals l = l := by
  rw [merge_intervals_eq_sweep]
  rw [List.mergeSort_of_sorted (hsorted.imp (fun hab => by simpa using hab))]
  cases l with
  | nil => rfl
  | cons first rest => exact sweep_of_gaps first rest hgaps

/-- Witness for C2's two-interval conjunct at a concrete adjacent pair. -/
theorem C2_witness :
    merge_intervals [((0 : Int), (4 : Int)), (5, 9)] = [(0, 9)] :=
  C2_merge_matches_reference.2 (0, 4) (5, 9) (by norm_num)

/-- Witness for C5 at a concrete already-merged list. -/
theorem C5_witness :
    merge_intervals [((0 : Int), (4 : Int)), (6, 9)] =
      [((0 : Int), (4 : Int)), (6, 9)] :=
  C5_merge_idempotent [(0, 4), (6, 9)]
    (by decide) (by norm_num [List.chain'_cons])

/-- One unfolding step of `sweep`. -/
theorem sweep_cons (c iv : Interval) (l : List Interval) :
    sweep c (iv :: l) =
      if iv.1 ≤ c.2 + 1 then sweep (c.1, max c.2 iv.2) l else c :: sweep iv l :=
  rfl

/-- Swapping two adjacent intervals with equal starts (both well-formed, i.e.
start ≤ end) does not change the sweep. -/
theorem sweep_swap_ties (c x y : Interval) (rest : List Interval)
    (hkey : x.1 = y.1) (hx : x.1 ≤ x.2) (hy : y.1 ≤ y.2) :
    sweep c (x :: y :: rest) = sweep c (y :: x :: rest) := by
  rw [sweep_cons c x (y :: rest), sweep_cons c y (x :: rest)]
  by_cases h : x.1 ≤ c.2 + 1
  · rw [if_pos h, if_pos (show y.1 ≤ c.2 + 1 by omega)]
    rw [sweep_cons _ y rest, sweep_cons _ x rest]
    rw [if_pos (show y.1 ≤ max c.2 x.2 + 1 by
          have := le_max_left c.2 x.2; omega),
        if_pos (show x.1 ≤ max c.2 y.2 + 1 by
          have := le_max_left c.2 y.2; omega)]
    show sweep (c.1, max (max c.2 x.2) y.2) rest =
      sweep (c.1, max (max c.2 y.2) x.2) rest
    have hmax : max (max c.2 x.2) y.2 = max (max c.2 y.2) x.2 := by
      rw [max_assoc, max_assoc, max_comm x.2 y.2]
    rw [hmax]
  · rw [if_neg h, if_neg (show ¬ y.1 ≤ c.2 + 1 by omega)]
    rw [sweep_cons x y rest, sweep_cons y x rest]
    rw [if_pos (show y.1 ≤ x.2 + 1 by omega),
        if_pos (show x.1 ≤ y.2 + 1 by omega)]
    show c :: sweep (x.1, max x.2 y.2) rest = c :: sweep (y.1, max y.2 x.2) rest
    rw [hkey, max_comm]

/-- Swapping the running interval with an equal-start incoming interval does
not change the sweep. -/
theorem sweep_head_swap (x y : Interval) (r : List Interval)
    (hkey : x.1 = y.1) (hx : x.1 ≤ x.2) (hy : y.1 ≤ y.2) :
    sweep x (y :: r) = sweep y (x :: r) := by
  rw [sweep_cons x y r, sweep_cons y x r]
  rw [if_pos (show y.1 ≤ x.2 + 1 by omega),
      if_pos (show x.1 ≤ y.2 + 1 by omega)]
  show sweep (x.1, max x.2 y.2) r = sweep (y.1, max y.2 x.2) r
  rw [hkey, max_comm]

/-- An interval can be moved to the front past a prefix of well-formed
intervals that all share its start, without changing the sweep. -/
theorem sweep_move_front (y : Interval) (hy : y.1 ≤ y.2) :
    ∀ (pre rest : List Interval) (c : Interval),
      (∀ p ∈ pre, p.1 = y.1 ∧ p.1 ≤ p.2) →
      sweep c (pre ++ y :: rest) = sweep c (y :: (pre ++ rest))
  | [], rest, c, _ => rfl
  | a :: pre', rest, c, hpre => by
    have ha := hpre a (by simp)
    have hpre' : ∀ p ∈ pre', p.1 = y.1 ∧ p.1 ≤ p.2 :=
      fun p hp => hpre p (by simp [hp])
    have step : sweep c (a :: (pre' ++ y :: rest)) =
        sweep c (a :: (y :: (pre' ++ rest))) := by
      rw [sweep_cons c a (pre' ++ y :: rest), sweep_cons c a (y :: (pre' ++ rest))]
      by_cases h : a.1 ≤ c.2 + 1
      · rw [if_pos h, if_pos h, sweep_move_front y hy pre' rest _ hpre']
      · rw [if_neg h, if_neg h, sweep_move_front y hy pre' rest a hpre']
    calc sweep c ((a :: pre') ++ y :: rest)
        = sweep c (a :: (y :: (pre' ++ rest))) := step
      _ = sweep c (y :: (a :: (pre' ++ rest))) :=
          sweep_swap_ties c a y _ ha.1 ha.2 hy

/-- Two sorted-by-start permutations of the same well-formed intervals sweep
to the same result, from any running interval. -/
theorem sweep_perm_eq (n : Nat) :
    ∀ (l1 l2 : List Interval), l1.length ≤ n → l1.Perm l2 →
      l1.Pairwise (fun a b : Interval => a.1 ≤ b.1) →
      l2.Pairwise (fun a b : Interval => a.1 ≤ b.1) →
      (∀ p ∈ l1, p.1 ≤ p.2) →
      ∀ c : Interval, sweep c l1 = sweep c l2 := by
  induction n with
  | zero =>
    intro l1 l2 hlen hperm _ _ _ c
    have h1 : l1 = [] := List.eq_nil_of_length_eq_zero (by omega)
    have h2 : l2 = [] := List.eq_nil_of_length_eq_zero
      (by rw [← hperm.length_eq]; simp [h1])
    rw [h1, h2]
  | succ n ih =>
    intro l1 l2 hlen hperm hs1 hs2 hv c
    cases l1 with
    | nil =>
      have h2 : l2 = [] := List.eq_nil_of_length_eq_zero
        (by rw [← hperm.length_eq]; rfl)
      rw [h2]
    | cons x t1 =>
      cases l2 with
      | nil => exact absurd hperm.length_eq (by simp)
      | cons y t2 =>
        by_cases hxy : x = y
        · subst hxy
          have hperm' := hperm.cons_inv
          rw [sweep_cons c x t1, sweep_cons c x t2]
          rcases List.pairwise_cons.mp hs1 with ⟨-, ht1⟩
          rcases List.pairwise_cons.mp hs2 with ⟨-, ht2⟩
          have hv' : ∀ p ∈ t1, p.1 ≤ p.2 := fun p hp => hv p (by simp [hp])
          have hlen' : t1.length ≤ n := by simp at hlen; omega
          by_cases h : x.1 ≤ c.2 + 1
          · rw [if_pos h, if_pos h]
            exact ih t1 t2 hlen' hperm' ht1 ht2 hv' _
          · rw [if_neg h, if_neg h]
            rw [ih t1 t2 hlen' hperm' ht1 ht2 hv' x]
        · have hymem : y ∈ t1 := by
            have : y ∈ x :: t1 := hperm.mem_iff.mpr (by simp)
            rcases List.mem_cons.mp this with h | h
            · exact absurd h.symm hxy
            · exact h
          have hxmem : x ∈ t2 := by
            have : x ∈ y :: t2 := hperm.mem_iff.mp (by simp)
            rcases List.mem_cons.mp this with h | h
            · exact absurd h hxy
            · exact h
          rcases List.pairwise_cons.mp hs1 with ⟨hxall, ht1⟩
          rcases List.pairwise_cons.mp hs2 with ⟨hyall, ht2⟩
          have hkey : x.1 = y.1 := le_antisymm (hxall y hymem) (hyall x hxmem)
          obtain ⟨pre, suf, rfl⟩ := List.append_of_mem hymem
          rcases List.pairwise_append.mp ht1 with ⟨hprepw, hyspw, hcross⟩
          have hpre : ∀ p ∈ pre, p.1 = y.1 ∧ p.1 ≤ p.2 := by
            intro p hp
            refine ⟨le_antisymm (hcross p hp y (by simp)) ?_, ?_⟩
            · rw [← hkey]; exact hxall p (by simp [hp])
            · exact hv p (by simp [hp])
          have hxv : x.1 ≤ x.2 := hv x (by simp)
          have hyv : y.1 ≤ y.2 := hv y (by simp [hymem])
          have h1 : sweep c (x :: (pre ++ y :: suf)) =
              sweep c (x :: y :: (pre ++ suf)) := by
            rw [sweep_cons c x (pre ++ y :: suf),
              sweep_cons c x (y :: (pre ++ suf))]
            by_cases h : x.1 ≤ c.2 + 1
            · rw [if_pos h, if_pos h,
                sweep_move_front y hyv pre suf _ hpre]
            · rw [if_neg h, if_neg h,
                sweep_move_front y hyv pre suf x hpre]
          have h2 : sweep c (x :: y :: (pre ++ suf)) =
              sweep c (y :: x :: (pre ++ suf)) :=
            sweep_swap_ties c x y _ hkey hxv hyv
          have hperm' : (x :: (pre ++ suf)).Perm t2 := by
            have p1 : (x :: (pre ++ y :: suf)).Perm (y :: x :: (pre ++ suf)) :=
              ((List.perm_middle).cons x).trans (List.Perm.swap y x (pre ++ suf))
            exact (p1.symm.trans hperm).cons_inv
          have hsub : List.Sublist (x :: (pre ++ suf)) (x :: (pre ++ y :: suf)) :=
            (((List.Sublist.refl suf).cons y).append_left pre).cons₂ x
          have hsorted' : (x :: (pre ++ suf)).Pairwise
              (fun a b : Interval => a.1 ≤ b.1) :=
            List.Pairwise.sublist hsub hs1
          have hvalid' : ∀ p ∈ x :: (pre ++ suf), p.1 ≤ p.2 :=
            fun p hp => hv p (hsub.mem hp)
          have hlen' : (x :: (pre ++ suf)).length ≤ n := by
            simp at hlen ⊢; omega
          have h3 : sweep c (y :: x :: (pre ++ suf)) = sweep c (y :: t2) := by
            rw [sweep_cons c y (x :: (pre ++ suf)), sweep_cons c y t2]
            by_cases h : y.1 ≤ c.2 + 1
            · rw [if_pos h, if_pos h]
              exact ih _ t2 hlen' hperm' hsorted' ht2 hvalid' _
            · rw [if_neg h, if_neg h]
              rw [ih _ t2 hlen' hperm' hsorted' ht2 hvalid' y]
          exact h1.trans (h2.trans h3)

/-- C6: merging is order-independent: for well-formed intervals
(start ≤ end), permuting the input of `merge_intervals` does not change the
merged result. -/
theorem C6_merge_order_independent (l1 l2 : List Interval)
    (hperm : l1.Perm l2) (hvalid : ∀ p ∈ l1, p.1 ≤ p.2) :
    merge_intervals l1 = merge_intervals l2 := by
  rw [merge_intervals_eq_sweep, merge_intervals_eq_sweep]
  have hperm' : (l1.mergeSort (fun a b => decide (a.1 ≤ b.1))).Perm
      (l2.mergeSort (fun a b => decide (a.1 ≤ b.1))) :=
    (List.mergeSort_perm l1 _).trans
      (hperm.trans (List.mergeSort_perm l2 _).symm)
  have hv1 : ∀ p ∈ l1.mergeSort (fun a b => decide (a.1 ≤ b.1)), p.1 ≤ p.2 :=
    fun p hp => hvalid p ((List.mergeSort_perm l1 _).mem_iff.mp hp)
  have hs1 := mergeSort_fst_sorted l1
  have hs2 := mergeSort_fst_sorted l2
  revert hperm' hv1 hs1 hs2
  generalize l1.mergeSort (fun a b => decide (a.1 ≤ b.1)) = s1
  generalize l2.mergeSort (fun a b => decide (a.1 ≤ b.1)) = s2
  intro hperm' hv1 hs1 hs2
  cases s1 with
  | nil =>
    cases s2 with
    | nil => rfl
    | cons y t2 => exact absurd hperm'.length_eq (by simp)
  | cons x t1 =>
    cases s2 with
    | nil => exact absurd hperm'.length_eq (by simp)
    | cons y t2 =>
      show sweep x t1 = sweep y t2
      by_cases hxy : x = y
      · subst hxy
        rcases List.pairwise_cons.mp hs1 with ⟨-, ht1⟩
        rcases List.pairwise_cons.mp hs2 with ⟨-, ht2⟩
        exact sweep_perm_eq t1.length t1 t2 le_rfl hperm'.cons_inv ht1 ht2
          (fun p hp => hv1 p (by simp [hp])) x
      · have hymem : y ∈ t1 := by
          have : y ∈ x :: t1 := hperm'.mem_iff.mpr (by simp)
          rcases List.mem_cons.mp this with h | h
          · exact absurd h.symm hxy
          · exact h
        have hxmem : x ∈ t2 := by
          have : x ∈ y :: t2 := hperm'.mem_iff.mp (by simp)
          rcases List.mem_cons.mp this with h | h
          · exact absurd h hxy
          · exact h
        rcases List.pairwise_cons.mp hs1 with ⟨hxall, ht1⟩
        rcases List.pairwise_cons.mp hs2 with ⟨hyall, ht2⟩
        have hkey : x.1 = y.1 := le_antisymm (hxall y hymem) (hyall x hxmem)
        obtain ⟨pre, suf, rfl⟩ := List.append_of_mem hymem
        rcases List.pairwise_append.mp ht1 with ⟨hprepw, hyspw, hcross⟩
        have hpre : ∀ p ∈ pre, p.1 = y.1 ∧ p.1 ≤ p.2 := by
          intro p hp
          refine ⟨le_antisymm (hcross p hp y (by simp)) ?_, ?_⟩
          · rw [← hkey]; exact hxall p (by simp [hp])
          · exact hv1 p (by simp [hp])
        have hxv : x.1 ≤ x.2 := hv1 x (by simp)
        have hyv : y.1 ≤ y.2 := hv1 y (by simp [hymem])
        have hperm'' : (x :: (pre ++ suf)).Perm t2 := by
          have p1 : (x :: (pre ++ y :: suf)).Perm (y :: x :: (pre ++ suf)) :=
            ((List.perm_middle).cons x).trans (List.Perm.swap y x (pre ++ suf))
          exact (p1.symm.trans hperm').cons_inv
        have hsub : List.Sublist (x :: (pre ++ suf)) (x :: (pre ++ y :: suf)) :=
          (((List.Sublist.refl suf).cons y).append_left pre).cons₂ x
        have hsorted'' : (x :: (pre ++ suf)).Pairwise
            (fun a b : Interval => a.1 ≤ b.1) :=
          List.Pairwise.sublist hsub hs1
        have hvalid'' : ∀ p ∈ x :: (pre ++ suf), p.1 ≤ p.2 :=
          fun p hp => hv1 p (hsub.mem hp)
        calc sweep x (pre ++ y :: suf)
            = sweep x (y :: (pre ++ suf)) :=
              sweep_move_front y hyv pre suf x hpre
          _ = sweep y (x :: (pre ++ suf)) := sweep_head_swap x y _ hkey hxv hyv
          _ = sweep y t2 :=
              sweep_perm_eq (x :: (pre ++ suf)).length _ t2 le_rfl hperm''
                hsorted'' ht2 hvalid'' y

/-- Witness for C6 at a concrete permutation of well-formed intervals. -/
theorem C6_witness :
    merge_intervals [((5 : Int), (9 : Int)), (0, 4)] =
      merge_intervals [((0 : Int), (4 : Int)), (5, 9)] :=
  C6_merge_order_independent [(5, 9), (0, 4)] [(0, 4), (5, 9)]
    (List.Perm.swap ((0 : Int), (4 : Int)) ((5 : Int), (9 : Int)) [])
    (by decide)

/-- C3: the reconciliation plan is the pair of set differences, the two
action sets are disjoint, applying the plan to the membership keys
reconstructs the eligible set exactly, and both action lists are processed in
lexicographic (sorted) identity order. -/
theorem C3_reconciler_plan (E : Finset String) (M : List (String × String)) :
    ((sync_plan E M).1).toFinset = E \ (M.map Prod.fst).toFinset ∧
    ((sync_plan E M).2).toFinset = (M.map Prod.fst).toFinset \ E ∧
    Disjoint ((sync_plan E M).1).toFinset ((sync_plan E M).2).toFinset ∧
    ((M.map Prod.fst).toFinset \ ((sync_plan E M).2).toFinset) ∪
      ((sync_plan E M).1).toFinset = E ∧
    List.Sorted (· ≤ ·) (sync_plan E M).1 ∧
    List.Sorted (· ≤ ·) (sync_plan E M).2 := by
  unfold sync_plan
  simp only [Finset.sort_toFinset]
  refine ⟨trivial, trivial, disjoint_sdiff_sdiff, ?_, Finset.sort_sorted _ _,
    Finset.sort_sorted _ _⟩
  ext x
  simp only [Finset.mem_union, Finset.mem_sdiff]
  tauto

/-- C7: after applying the first run's plan (all lookups and calls
succeeding), a second run against the updated membership produces an empty
plan. -/
theorem C7_reconciler_idempotent (E : Finset String)
    (M M' : List (String × String))
    (h : (M'.map Prod.fst).toFinset =
      apply_plan_keys ((M.map Prod.fst).toFinset) (sync_plan E M)) :
    sync_plan E M' = ([], []) := by
  have hE : (M'.map Prod.fst).toFinset = E := by
    rw [h]
    unfold apply_plan_keys sync_plan
    simp only [Finset.sort_toFinset]
    ext x
    simp only [Finset.mem_union, Finset.mem_sdiff]
    tauto
  unfold sync_plan
  rw [hE]
  simp

/-- Witness for C7 at a concrete membership and eligible set. -/
theorem C7_witness :
    sync_plan {"b", "c"} [("b", "2"), ("c", "3")] = ([], []) :=
  C7_reconciler_idempotent {"b", "c"} [("a", "1"), ("b", "2")]
    [("b", "2"), ("c", "3")]
    (by
      unfold apply_plan_keys sync_plan
      simp only [Finset.sort_toFinset]
      decide)

/-- One unfolding step of the pagination loop; the two trailing `break`
branches of the source collapse to the same result. -/
theorem fetch_cons {α : Type} (pageSize : Nat) (p : Page α)
    (rest : List (Page α)) :
    fetch_time_offs pageSize (p :: rest) =
      match p.items with
      | Option.none => ([], 1)
      | some items =>
        if items.isEmpty then ([], 1)
        else if p.has_next_page && p.next_cursor.isSome then
          (items ++ (fetch_time_offs pageSize rest).1,
            (fetch_time_offs pageSize rest).2 + 1)
        else (items, 1) := by
  cases hi : p.items with
  | none => simp [fetch_time_offs, hi]
  | some items =>
    simp only [fetch_time_offs, hi]
    by_cases he : items.isEmpty
    · simp [he]
    · simp only [he, if_neg, Bool.false_eq_true, not_false_iff]
      by_cases hf : p.has_next_page && p.next_cursor.isSome
      · simp [hf]
      · simp only [hf, if_neg, Bool.false_eq_true, not_false_iff]
        by_cases hl : items.length < pageSize <;> simp [hl]

/-- C9: the pagination loop requests a subsequent page only when the current
response has both a truthy `has_next_page` and a cursor; in every other case
— including a full page without those flags — it stops after yielding the
current page's items. -/
theorem C9_pagination_contract {α : Type} (pageSize : Nat) (p : Page α)
    (rest : List (Page α)) :
    (¬ (p.has_next_page = true ∧ p.next_cursor.isSome = true) →
      fetch_time_offs pageSize (p :: rest) = (p.items.getD [], 1)) ∧
    (∀ items, p.items = some items → items ≠ [] →
      p.has_next_page = true → p.next_cursor.isSome = true →
      fetch_time_offs pageSize (p :: rest) =
        (items ++ (fetch_time_offs pageSize rest).1,
          (fetch_time_offs pageSize rest).2 + 1)) ∧
    (2 ≤ (fetch_time_offs pageSize (p :: rest)).2 →
      p.has_next_page = true ∧ p.next_cursor.isSome = true) := by
  have h1 : ¬ (p.has_next_page = true ∧ p.next_cursor.isSome = true) →
      fetch_time_offs pageSize (p :: rest) = (p.items.getD [], 1) := by
    intro hno
    have hf : (p.has_next_page && p.next_cursor.isSome) = false := by
      cases hb : p.has_next_page <;> cases hc : p.next_cursor.isSome <;>
        simp_all
    rw [fetch_cons]
    cases hi : p.items with
    | none => simp
    | some items =>
      by_cases he : items.isEmpty
      · simp [he, List.isEmpty_iff.mp he]
      · simp [he, hf]
  refine ⟨h1, ?_, ?_⟩
  · intro items hi hne hb hc
    rw [fetch_cons, hi]
    have he : items.isEmpty = false := by
      simpa [List.isEmpty_iff] using hne
    simp [he, hb, hc]
  · intro h2
    by_contra hno
    rw [h1 hno] at h2
    omega

/-- Witness for C9: a full page (two items, page size two) without the
continuation flags stops the loop; with both flags it continues. -/
theorem C9_witness :
    fetch_time_offs 2 [(⟨some [10, 20], false, Option.none⟩ : Page Nat),
        ⟨some [30], false, Option.none⟩] = ([10, 20], 1) ∧
    fetch_time_offs 2 [(⟨some [10, 20], true, some ("cur")⟩ : Page Nat),
        ⟨some [30], false, Option.none⟩] = ([10, 20, 30], 2) := by
  constructor
  · exact (C9_pagination_contract 2 ⟨some [10, 20], false, Option.none⟩
      [⟨some [30], false, Option.none⟩]).1 (by simp)
  · have h := (C9_pagination_contract 2
      (⟨some [10, 20], true, some ("cur")⟩ : Page Nat)
      [⟨some [30], false, Option.none⟩]).2.1 [10, 20] rfl (by simp) rfl rfl
    rw [h]
    have h2 := (C9_pagination_contract 2
      (⟨some [30], false, Option.none⟩ : Page Nat) []).1 (by simp)
    rw [h2]
    rfl

/-- Parsing `None` (or any falsy value) gives no date. -/
theorem parse_date_null (lib : DateLib) : parse_date lib PyVal.null = none :=
  rfl

/-- Characterization of the excluded (`None`) result of
`get_interval_and_amount`: unparsable start date, an interval missing the
window, or an absent or non-numeric amount. -/
theorem giaa_eq_none_iff (lib : DateLib) (entry : Entry) (ws we : Int) :
    get_interval_and_amount lib entry ws we = none ↔
      parse_date lib entry.start_date = none ∨
      (∃ s, parse_date lib entry.start_date = some s ∧
        (we < s ∨ (parse_date lib entry.end_date).getD s < ws)) ∨
      entry.amount = none ∨ entry.amount = some PyAmount.bad := by
  rcases hps : parse_date lib entry.start_date with _ | s
  · simp [get_interval_and_amount, hps, Option.orElse]
  · rcases hpe : parse_date lib entry.end_date with _ | e
    · rcases ha : entry.amount with _ | am
      · simp only [get_interval_and_amount, hps, hpe, ha, Option.orElse]
        simp only [Option.getD_none]
        constructor
        · intro hson
          by_cases hc : s ≤ we ∧ ws ≤ s
          · tauto
          · refine Or.inr (Or.inl ⟨s, rfl, ?_⟩)
            omega
        · intro hson
          by_cases hc : s ≤ we ∧ ws ≤ s <;> simp [hc]
      · rcases am with q | _
        · simp only [get_interval_and_amount, hps, hpe, ha, Option.orElse]
          simp only [Option.getD_none]
          constructor
          · intro hres
            by_cases hc : s ≤ we ∧ ws ≤ s
            · simp [hc] at hres
            · refine Or.inr (Or.inl ⟨s, rfl, ?_⟩)
              omega
          · intro hres
            rcases hres with h | ⟨s', hs', h⟩ | h | h
            · simp at h
            · rw [if_neg ?_]
              injection hs' with hs'
              omega
            · simp at h
            · simp at h
        · simp only [get_interval_and_amount, hps, hpe, ha, Option.orElse]
          by_cases hc : s ≤ we ∧ ws ≤ s <;> simp [hc]
    · rcases ha : entry.amount with _ | am
      · simp only [get_interval_and_amount, hps, hpe, ha, Option.orElse]
        simp only [Option.getD_some]
        constructor
        · intro hson
          by_cases hc : s ≤ we ∧ ws ≤ e
          · tauto
          · refine Or.inr (Or.inl ⟨s, rfl, ?_⟩)
            omega
        · intro hson
          by_cases hc : s ≤ we ∧ ws ≤ e <;> simp [hc]
      · rcases am with q | _
        · simp only [get_interval_and_amount, hps, hpe, ha, Option.orElse]
          simp only [Option.getD_some]
          constructor
          · intro hres
            by_cases hc : s ≤ we ∧ ws ≤ e
            · simp [hc] at hres
            · refine Or.inr (Or.inl ⟨s, rfl, ?_⟩)
              omega
          · intro hres
            rcases hres with h | ⟨s', hs', h⟩ | h | h
            · simp at h
            · rw [if_neg ?_]
              injection hs' with hs'
              omega
            · simp at h
            · simp at h
        · simp only [get_interval_and_amount, hps, hpe, ha, Option.orElse]
          by_cases hc : s ≤ we ∧ ws ≤ e <;> simp [hc]

/-- The non-excluded result of `get_interval_and_amount`: the parsed start,
the end (defaulting to the start), and the numeric amount. -/
theorem giaa_eq_some (lib : DateLib) (entry : Entry) (ws we : Int)
    (s : Int) (q : ℚ)
    (hps : parse_date lib entry.start_date = some s)
    (ha : entry.amount = some (PyAmount.num q))
    (h1 : s ≤ we) (h2 : ws ≤ (parse_date lib entry.end_date).getD s) :
    get_interval_and_amount lib entry ws we =
      some (s, (parse_date lib entry.end_date).getD s, q) := by
  rcases hpe : parse_date lib entry.end_date with _ | e
  · rw [hpe] at h2
    simp only [Option.getD_none] at h2 ⊢
    simp [get_interval_and_amount, hps, hpe, ha, Option.orElse, h1, h2]
  · rw [hpe] at h2
    simp only [Option.getD_some] at h2 ⊢
    simp [get_interval_and_amount, hps, hpe, ha, Option.orElse, h1, h2]

/-- A string whose stripped form ends in "Z" is parsed after replacing the
suffix with an explicit UTC offset. -/
theorem parse_date_strZ (lib : DateLib) (s : String)
    (hne : py_truthy (PyVal.str s) = true)
    (hz : s.trim.endsWith ("Z") = true) :
    parse_date lib (PyVal.str s) =
      match lib.datetimeFromIso (s.trim.dropRight 1 ++ "+00:00") with
      | some d => some d
      | Option.none => lib.dateFromIso (s.trim.dropRight 1 ++ "+00:00") := by
  unfold parse_date
  rw [if_neg (by simp [hne])]
  simp [hz]

/-- C4: interval-and-amount extraction returns the excluded value exactly for
an unparsable start date, an interval missing the window, or an absent or
non-numeric amount; otherwise it returns `(start, end, amount)` with the end
defaulting to the start; an absent end-date field parses to nothing; and a
trailing "Z" on a date string is normalized to "+00:00" before parsing.
Exclusion is the total `none` branch — no exception escapes. -/
theorem C4_extraction_contract (lib : DateLib) (entry : Entry) (ws we : Int) :
    (get_interval_and_amount lib entry ws we = none ↔
      parse_date lib entry.start_date = none ∨
      (∃ s, parse_date lib entry.start_date = some s ∧
        (we < s ∨ (parse_date lib entry.end_date).getD s < ws)) ∨
      entry.amount = none ∨ entry.amount = some PyAmount.bad) ∧
    (∀ s q, parse_date lib entry.start_date = some s →
      entry.amount = some (PyAmount.num q) →
      s ≤ we → ws ≤ (parse_date lib entry.end_date).getD s →
      get_interval_and_amount lib entry ws we =
        some (s, (parse_date lib entry.end_date).getD s, q)) ∧
    (entry.end_date = PyVal.null → parse_date lib entry.end_date = none) ∧
    (∀ str, py_truthy (PyVal.str str) = true →
      str.trim.endsWith ("Z") = true →
      parse_date lib (PyVal.str str) =
        match lib.datetimeFromIso (str.trim.dropRight 1 ++ "+00:00") with
        | some d => some d
        | Option.none => lib.dateFromIso (str.trim.dropRight 1 ++ "+00:00")) :=
  ⟨giaa_eq_none_iff lib entry ws we,
   fun s q hps ha h1 h2 => giaa_eq_some lib entry ws we s q hps ha h1 h2,
   fun h => by rw [h]; exact parse_date_null lib,
   fun str h1 h2 => parse_date_strZ lib str h1 h2⟩

/-- C10: an end-date field that is present but unparsable is not a reason for
exclusion: extraction behaves exactly as if the end-date field were absent
(the end silently defaults to the start). -/
theorem C10_unparsable_end_defaults (lib : DateLib) (entry : Entry)
    (ws we : Int) (s : String)
    (hend : entry.end_date = PyVal.str s)
    (hbad : parse_date lib (PyVal.str s) = none) :
    get_interval_and_amount lib entry ws we =
      get_interval_and_amount lib
        { entry with end_date := PyVal.null } ws we := by
  unfold get_interval_and_amount
  simp [hend, hbad, parse_date_null]

/-- Looking up after a setdefault-append: the appended key gains `t` at the
end of its list, every other key is untouched. -/
theorem ledgerLookup_ledgerAppend {β : Type} (led : List (String × List β))
    (e e' : String) (t : β) :
    ledgerLookup (ledgerAppend led e t) e' =
      if e' = e then some ((ledgerLookup led e').getD [] ++ [t])
      else ledgerLookup led e' := by
  induction led with
  | nil =>
    by_cases h : e' = e
    · subst h
      simp [ledgerAppend, ledgerLookup]
    · have h2 : ¬ e = e' := fun hh => h hh.symm
      simp [ledgerAppend, ledgerLookup, h, h2]
  | cons kv rest ih =>
    obtain ⟨k, v⟩ := kv
    by_cases hk : k = e
    · subst hk
      by_cases h : e' = k
      · subst h
        simp [ledgerAppend, ledgerLookup]
      · have h2 : ¬ k = e' := fun hh => h hh.symm
        simp [ledgerAppend, ledgerLookup, h, h2]
    · by_cases h : e' = k
      · subst h
        have h2 : ¬ e' = e := fun hh => hk (hh ▸ rfl)
        simp [ledgerAppend, hk, ledgerLookup, h2]
      · simp only [ledgerAppend, if_neg hk, ledgerLookup,
          if_neg (fun hh : k = e' => h hh.symm)]
        exact ih

/-- A successful dict lookup exhibits a binding in the association list. -/
theorem ledgerLookup_mem {β : Type} (led : List (String × β)) (e : String)
    (v : β) (h : ledgerLookup led e = some v) : (e, v) ∈ led := by
  induction led with
  | nil => simp [ledgerLookup] at h
  | cons kv rest ih =>
    obtain ⟨k, w⟩ := kv
    by_cases hk : k = e
    · subst hk
      simp [ledgerLookup] at h
      simp [h]
    · simp only [ledgerLookup, if_neg hk] at h
      exact List.mem_cons_of_mem _ (ih h)

/-- A setdefault-append adds the key at the end when absent, and keeps the
key sequence otherwise. -/
theorem ledgerAppend_keys {β : Type} (led : List (String × List β))
    (e : String) (t : β) :
    (ledgerAppend led e t).map Prod.fst =
      if e ∈ led.map Prod.fst then led.map Prod.fst
      else led.map Prod.fst ++ [e] := by
  induction led with
  | nil => simp [ledgerAppend]
  | cons kv rest ih =>
    obtain ⟨k, v⟩ := kv
    by_cases hk : k = e
    · subst hk
      simp [ledgerAppend]
    · have h2 : ¬ e = k := fun hh => hk hh.symm
      simp only [ledgerAppend, if_neg hk, List.map_cons, ih]
      by_cases he : e ∈ rest.map Prod.fst
      · simp [he, h2]
      · simp [he, h2]

/-- A setdefault-append preserves distinctness of the dict keys. -/
theorem ledgerAppend_nodup {β : Type} (led : List (String × List β))
    (e : String) (t : β) (h : (led.map Prod.fst).Nodup) :
    ((ledgerAppend led e t).map Prod.fst).Nodup := by
  rw [ledgerAppend_keys]
  by_cases he : e ∈ led.map Prod.fst
  · simpa [he]
  · simp [he, List.nodup_append, h]

/-- Distinct keys make association-list bindings unique. -/
theorem nodup_keys_mem_unique {β : Type} (led : List (String × β))
    (hnd : (led.map Prod.fst).Nodup) (e : String) (v w : β)
    (hv : (e, v) ∈ led) (hw : (e, w) ∈ led) : v = w := by
  induction led with
  | nil => simp at hv
  | cons kv rest ih =>
    obtain ⟨k, u⟩ := kv
    simp only [List.map_cons, List.nodup_cons] at hnd
    rcases List.mem_cons.mp hv with h1 | h1 <;>
      rcases List.mem_cons.mp hw with h2 | h2
    · rw [Prod.mk.injEq] at h1 h2
      rw [h1.2, h2.2]
    · exfalso
      apply hnd.1
      rw [Prod.mk.injEq] at h1
      rw [← h1.1]
      exact List.mem_map.mpr ⟨(e, w), h2, rfl⟩
    · exfalso
      apply hnd.1
      rw [Prod.mk.injEq] at h2
      rw [← h2.1]
      exact List.mem_map.mpr ⟨(e, v), h1, rfl⟩
    · exact ih hnd.2 h1 h2

/-- One loop step of the ledger build preserves distinct keys. -/
theorem ledgerStep_nodup (lib : DateLib) (today : Int)
    (led : List (String × List LedgerEntry)) (entry : Entry)
    (h : (led.map Prod.fst).Nodup) :
    ((ledgerStep lib today led entry).map Prod.fst).Nodup := by
  unfold ledgerStep
  rcases entry.email with _ | email
  · exact h
  · rcases get_interval_and_amount lib entry today today with _ | t
    · exact h
    · exact ledgerAppend_nodup led email t h

/-- The built ledgers have distinct keys (Python dict keys are unique). -/
theorem buildLedgers_nodup (lib : DateLib) (today : Int)
    (entries : List Entry) :
    ((buildLedgers lib today entries).map Prod.fst).Nodup := by
  unfold buildLedgers
  suffices h : ∀ led : List (String × List LedgerEntry),
      (led.map Prod.fst).Nodup →
      ((entries.foldl (ledgerStep lib today) led).map Prod.fst).Nodup by
    exact h [] (by simp)
  induction entries with
  | nil => intro led h; exact h
  | cons entry rest ih =>
    intro led h
    exact ih _ (ledgerStep_nodup lib today led entry h)

/-- The boolean eligibility test, as the existence of a qualifying merged
span. -/
theorem eligibleLedger_iff (minDays : Int) (minAmount : ℚ)
    (amts : List LedgerEntry) :
    eligibleLedger minDays minAmount amts = true ↔
      ∃ sp ∈ merge_intervals (amts.map fun t => (t.1, t.2.1)),
        minDays ≤ sp.2 - sp.1 + 1 ∧ minAmount ≤ spanTotal amts sp.1 sp.2 := by
  unfold eligibleLedger
  rw [List.any_eq_true]
  constructor
  · rintro ⟨sp, hsp, hq⟩
    simp only [Bool.and_eq_true, decide_eq_true_eq] at hq
    exact ⟨sp, hsp, hq⟩
  · rintro ⟨sp, hsp, hq1, hq2⟩
    exact ⟨sp, hsp, by simp [hq1, hq2]⟩

/-- C1: an identity with a ledger is eligible iff some merged span of its
ledger intervals has both at least `minDays` days (`(end - start).days + 1`)
and an intersecting-amount total of at least `minAmount`; the total is summed
per span only, never across spans. -/
theorem C1_eligibility_iff (lib : DateLib) (today minDays : Int)
    (minAmount : ℚ) (entries : List Entry) (email : String)
    (amts : List LedgerEntry)
    (h : ledgerLookup (buildLedgers lib today entries) email = some amts) :
    email ∈ compute_long_term_emails lib today minDays minAmount entries ↔
      ∃ sp ∈ merge_intervals (amts.map fun t => (t.1, t.2.1)),
        minDays ≤ sp.2 - sp.1 + 1 ∧ minAmount ≤ spanTotal amts sp.1 sp.2 := by
  have hnd := buildLedgers_nodup lib today entries
  have hmem := ledgerLookup_mem _ _ _ h
  rw [← eligibleLedger_iff]
  unfold compute_long_term_emails
  rw [List.mem_filterMap]
  constructor
  · rintro ⟨p, hp, hpe⟩
    by_cases hel : eligibleLedger minDays minAmount p.2
    · rw [if_pos hel] at hpe
      injection hpe with hpe
      subst hpe
      have : p.2 = amts := by
        refine nodup_keys_mem_unique _ hnd p.1 p.2 amts ?_ hmem
        exact hp
      rw [← this]
      exact hel
    · rw [if_neg hel] at hpe
      exact absurd hpe (by simp)
  · intro hel
    exact ⟨(email, amts), hmem, by rw [if_pos hel]⟩

/-- Every triple produced by extraction against a window satisfies the
window-intersection bounds. -/
theorem giaa_bounds (lib : DateLib) (entry : Entry) (ws we : Int)
    (t : LedgerEntry) (h : get_interval_and_amount lib entry ws we = some t) :
    t.1 ≤ we ∧ ws ≤ t.2.1 := by
  unfold get_interval_and_amount at h
  rcases hps : parse_date lib entry.start_date with _ | s <;> rw [hps] at h
  · simp at h
  · rcases hpe : parse_date lib entry.end_date with _ | e <;> rw [hpe] at h
    · simp only [Option.orElse] at h
      rcases ha : entry.amount with _ | am <;> rw [ha] at h
      · by_cases hc : s ≤ we ∧ ws ≤ s <;> simp [hc] at h
      · rcases am with q | _
        · by_cases hc : s ≤ we ∧ ws ≤ s <;> simp [hc] at h
          rw [← h]
          exact hc
        · by_cases hc : s ≤ we ∧ ws ≤ s <;> simp [hc] at h
    · simp only [Option.orElse] at h
      rcases ha : entry.amount with _ | am <;> rw [ha] at h
      · by_cases hc : s ≤ we ∧ ws ≤ e <;> simp [hc] at h
      · rcases am with q | _
        · by_cases hc : s ≤ we ∧ ws ≤ e <;> simp [hc] at h
          rw [← h]
          exact hc
        · by_cases hc : s ≤ we ∧ ws ≤ e <;> simp [hc] at h

/-- A setdefault-append of an overlapping triple preserves the invariant. -/
theorem ledgerAppend_ok (today : Int)
    (led : List (String × List LedgerEntry)) (e : String) (t : LedgerEntry)
    (hled : ledgerOK today led) (ht : t.1 ≤ today ∧ today ≤ t.2.1) :
    ledgerOK today (ledgerAppend led e t) := by
  induction led with
  | nil =>
    intro p hp u hu
    simp [ledgerAppend] at hp
    rw [hp] at hu
    simp at hu
    rw [hu]
    exact ht
  | cons kv rest ih =>
    obtain ⟨k, v⟩ := kv
    by_cases hk : k = e
    · subst hk
      intro p hp u hu
      simp only [ledgerAppend, if_pos rfl] at hp
      rcases List.mem_cons.mp hp with h1 | h1
      · rw [h1] at hu
        simp only [List.mem_append, List.mem_singleton] at hu
        rcases hu with hu | hu
        · exact hled (k, v) (by simp) u hu
        · rw [hu]; exact ht
      · exact hled p (List.mem_cons_of_mem _ h1) u hu
    · intro p hp u hu
      simp only [ledgerAppend, if_neg hk] at hp
      rcases List.mem_cons.mp hp with h1 | h1
      · rw [h1] at hu
        exact hled (k, v) (by simp) u hu
      · exact ih (fun p' hp' => hled p' (List.mem_cons_of_mem _ hp')) p h1 u hu

/-- One loop step preserves the ledger invariant. -/
theorem ledgerStep_ok (lib : DateLib) (today : Int)
    (led : List (String × List LedgerEntry)) (entry : Entry)
    (h : ledgerOK today led) :
    ledgerOK today (ledgerStep lib today led entry) := by
  unfold ledgerStep
  rcases entry.email with _ | email
  · exact h
  · rcases hg : get_interval_and_amount lib entry today today with _ | t
    · exact h
    · exact ledgerAppend_ok today led email t h (giaa_bounds lib entry today today t hg)

/-- The ledgers built against the single-day window `[today, today]` satisfy
the overlap invariant. -/
theorem buildLedgers_ok (lib : DateLib) (today : Int) (entries : List Entry) :
    ledgerOK today (buildLedgers lib today entries) := by
  unfold buildLedgers
  suffices h : ∀ led, ledgerOK today led →
      ledgerOK today (entries.foldl (ledgerStep lib today) led) by
    exact h [] (by intro p hp; simp at hp)
  induction entries with
  | nil => intro led h; exact h
  | cons entry rest ih =>
    intro led h
    exact ih _ (ledgerStep_ok lib today led entry h)

/-- C8: every `(interval, amount)` pair accumulated into a ledger overlaps
the evaluation anchor date (`start ≤ today ≤ end`), because extraction runs
against the single-day window `[today, today]`; hence `start ≤ end`. -/
theorem C8_ledger_overlaps_today (lib : DateLib) (today : Int)
    (entries : List Entry) (email : String) (amts : List LedgerEntry)
    (h : ledgerLookup (buildLedgers lib today entries) email = some amts) :
    ∀ t ∈ amts, t.1 ≤ today ∧ today ≤ t.2.1 ∧ t.1 ≤ t.2.1 := by
  intro t ht
  have hmem := ledgerLookup_mem _ _ _ h
  have hb := buildLedgers_ok lib today entries (email, amts) hmem t ht
  exact ⟨hb.1, hb.2, le_trans hb.1 hb.2⟩

/-- Witness for C1 at a concrete one-record stream. -/
theorem C1_witness :
    ("a" ∈ compute_long_term_emails lib0 0 1 1 [entryW] ↔
      ∃ sp ∈ merge_intervals
          ([((0 : Int), (0 : Int), (5 : ℚ))].map fun t => (t.1, t.2.1)),
        (1 : Int) ≤ sp.2 - sp.1 + 1 ∧
        (1 : ℚ) ≤ spanTotal [(0, 0, 5)] sp.1 sp.2) :=
  C1_eligibility_iff lib0 0 1 1 [entryW] ("a") [(0, 0, 5)] (by decide)

/-- Witness for C4's non-excluded branch at a concrete record. -/
theorem C4_witness :
    get_interval_and_amount lib0 entryW 0 0 =
      some (0, (parse_date lib0 entryW.end_date).getD 0, 5) :=
  (C4_extraction_contract lib0 entryW 0 0).2.1 0 5 (by decide) rfl
    (by decide) (by decide)

/-- Witness for C8 at a concrete ledger triple. -/
theorem C8_witness :
    (0 : Int) ≤ 0 ∧ (0 : Int) ≤ 0 ∧ (0 : Int) ≤ 0 :=
  C8_ledger_overlaps_today lib0 0 [entryW] ("a") [(0, 0, 5)] (by decide)
    (0, 0, 5) (by decide)

/-- Witness for C10 at a concrete record with an unparsable end date. -/
theorem C10_witness :
    get_interval_and_amount lib0 entryZ 0 0 =
      get_interval_and_amount lib0
        { entryZ with end_date := PyVal.null } 0 0 :=
  C10_unparsable_end_defaults lib0 entryZ 0 0 ("x") rfl (by decide)

end CloudFunction
